import Mathlib

set_option maxRecDepth 100000

/-!
Verification development for the per-user file-based memory store
(`memento_server_files.py`) and the file-server MCP tool layer
(`mcpmemento/memento_mcp_server.py`).

Strings are modelled as `List Char`; all concrete inputs used in the
theorems are ASCII, and the character-class primitives (`\w`, lowercasing,
whitespace) are modelled at their ASCII meaning, on which Python's
Unicode-aware versions agree.
-/

namespace Memento

/-! ## ASCII character primitives -/

/-- An ASCII uppercase letter (`A`-`Z`, code points 65-90). -/
def isUpperAscii (c : Char) : Bool := 65 ≤ c.toNat && c.toNat ≤ 90

/-- Python `str.lower()` restricted to ASCII: map `A`-`Z` to `a`-`z`. -/
def lowerChar (c : Char) : Char :=
  if 65 ≤ c.toNat ∧ c.toNat ≤ 90 then Char.ofNat (c.toNat + 32) else c

def lowerStr (s : List Char) : List Char := s.map lowerChar

/-- Python regex `\w` at its ASCII meaning: `[A-Za-z0-9_]`. -/
def isWordChar (c : Char) : Bool :=
  (97 ≤ c.toNat && c.toNat ≤ 122) || (65 ≤ c.toNat && c.toNat ≤ 90) ||
  (48 ≤ c.toNat && c.toNat ≤ 57) || c.toNat == 95

/-- Python `str.strip()` whitespace class (the ASCII part). -/
def isSpaceChar (c : Char) : Bool :=
  c = ' ' ∨ c = '\t' ∨ c = '\n' ∨ c = '\x0b' ∨ c = '\x0c' ∨ c = '\r'

/-- Python `str.strip()`: drop leading and trailing whitespace. -/
def strip (s : List Char) : List Char :=
  ((s.dropWhile isSpaceChar).reverse.dropWhile isSpaceChar).reverse

/-- UTF-8 encoding of one character (as `str.encode()` does per code point). -/
def utf8Char (c : Char) : List Nat :=
  let n := c.toNat
  if n < 128 then [n]
  else if n < 2048 then [192 + n / 64, 128 + n % 64]
  else if n < 65536 then [224 + n / 4096, 128 + (n / 64) % 64, 128 + n % 64]
  else [240 + n / 262144, 128 + (n / 4096) % 64, 128 + (n / 64) % 64, 128 + n % 64]

/-- Model of `str.encode()`: the UTF-8 bytes of a string. -/
def utf8 (s : List Char) : List Nat := s.flatMap utf8Char

/-! ## MD5 (RFC 1321), executable over byte lists

`hashlib.md5(user_id.encode()).hexdigest()` is modelled bit-exactly:
32-bit words are `Nat` values kept below `2^32` by explicit reduction. -/

namespace MD5

def M32 : Nat := 4294967296

def add32 (a b : Nat) : Nat := (a + b) % M32

/-- The 32-bit complement (arguments are always `< 2^32`). -/
def not32 (a : Nat) : Nat := Nat.xor a 4294967295

/-- The 32-bit left rotation. -/
def rotl (x s : Nat) : Nat :=
  Nat.lor ((x * 2 ^ s) % M32) (x / 2 ^ (32 - s))

/-- The 64 sine-derived round constants of RFC 1321. -/
def K : List Nat :=
  [3614090360, 3905402710, 606105819, 3250441966,
   4118548399, 1200080426, 2821735955, 4249261313,
   1770035416, 2336552879, 4294925233, 2304563134,
   1804603682, 4254626195, 2792965006, 1236535329,
   4129170786, 3225465664, 643717713, 3921069994,
   3593408605, 38016083, 3634488961, 3889429448,
   568446438, 3275163606, 4107603335, 1163531501,
   2850285829, 4243563512, 1735328473, 2368359562,
   4294588738, 2272392833, 1839030562, 4259657740,
   2763975236, 1272893353, 4139469664, 3200236656,
   681279174, 3936430074, 3572445317, 76029189,
   3654602809, 3873151461, 530742520, 3299628645,
   4096336452, 1126891415, 2878612391, 4237533241,
   1700485571, 2399980690, 4293915773, 2240044497,
   1873313359, 4264355552, 2734768916, 1309151649,
   4149444226, 3174756917, 718787259, 3951481745]

/-- The per-round left-rotation amounts. -/
def S : List Nat :=
  [7, 12, 17, 22, 7, 12, 17, 22, 7, 12, 17, 22, 7, 12, 17, 22,
   5, 9, 14, 20, 5, 9, 14, 20, 5, 9, 14, 20, 5, 9, 14, 20,
   4, 11, 16, 23, 4, 11, 16, 23, 4, 11, 16, 23, 4, 11, 16, 23,
   6, 10, 15, 21, 6, 10, 15, 21, 6, 10, 15, 21, 6, 10, 15, 21]

/-- Little-endian value of a byte list. -/
def fromLE (bs : List Nat) : Nat := bs.foldr (fun b acc => b + 256 * acc) 0

/-- The encoding of `n` as `k` little-endian bytes. -/
def toLE (k n : Nat) : List Nat := (List.range k).map (fun i => n / 256 ^ i % 256)

/-- The `g`-th 32-bit word of a 64-byte chunk. -/
def word (chunk : List Nat) (g : Nat) : Nat := fromLE ((chunk.drop (4 * g)).take 4)

/-- One of the 64 rounds on state `(a, b, c, d)`. -/
def round (chunk : List Nat) (st : Nat × Nat × Nat × Nat) (i : Nat) :
    Nat × Nat × Nat × Nat :=
  let (a, b, c, d) := st
  let f :=
    if i < 16 then Nat.lor (Nat.land b c) (Nat.land (not32 b) d)
    else if i < 32 then Nat.lor (Nat.land d b) (Nat.land (not32 d) c)
    else if i < 48 then Nat.xor b (Nat.xor c d)
    else Nat.xor c (Nat.lor b (not32 d))
  let g :=
    if i < 16 then i
    else if i < 32 then (5 * i + 1) % 16
    else if i < 48 then (3 * i + 5) % 16
    else 7 * i % 16
  let tmp := add32 f (add32 a (add32 (K.getD i 0) (word chunk g)))
  (d, add32 b (rotl tmp (S.getD i 0)), b, c)

/-- Process one 64-byte chunk into the running digest state. -/
def processChunk (st : Nat × Nat × Nat × Nat) (chunk : List Nat) :
    Nat × Nat × Nat × Nat :=
  let (a0, b0, c0, d0) := st
  let (a, b, c, d) := (List.range 64).foldl (round chunk) st
  (add32 a0 a, add32 b0 b, add32 c0 c, add32 d0 d)

/-- RFC 1321 padding: `0x80`, zeros to 56 mod 64, 8-byte LE bit length. -/
def pad (msg : List Nat) : List Nat :=
  msg ++ [128] ++ List.replicate ((119 - msg.length % 64) % 64) 0
      ++ toLE 8 (8 * msg.length)

/-- Split into 64-byte chunks (structural recursion on a length fuel, so the
kernel can evaluate it). -/
def chunksAux : Nat → List Nat → List (List Nat)
  | 0, _ => []
  | _, [] => []
  | n + 1, x :: xs => ((x :: xs).take 64) :: chunksAux n ((x :: xs).drop 64)

def chunks64 (l : List Nat) : List (List Nat) := chunksAux l.length l

/-- The 16 digest bytes of a byte message. -/
def digestBytes (msg : List Nat) : List Nat :=
  let st :=
    (chunks64 (pad msg)).foldl processChunk
      (1732584193, 4023233417, 2562383102, 271733878)
  toLE 4 st.1 ++ toLE 4 st.2.1 ++ toLE 4 st.2.2.1 ++ toLE 4 st.2.2.2

/-- One lowercase hex character for a value `< 16`. -/
def hexChar (n : Nat) : Char :=
  if n < 10 then Char.ofNat (48 + n) else Char.ofNat (87 + n)

/-- Model of `hexdigest()`: 32 lowercase hex characters. -/
def hexDigest (msg : List Nat) : List Char :=
  (digestBytes msg).flatMap (fun b => [hexChar (b / 16), hexChar (b % 16)])

end MD5

/-- Model of `hashlib.md5(s.encode()).hexdigest()[:8]`, the 8-character truncated
digest used by `sanitize_user_id`. -/
def md5hex8 (s : List Char) : List Char := (MD5.hexDigest (utf8 s)).take 8

/-! ## Data model of `memento_server_files.py`

Timestamps (`datetime.now()`, ISO strings parsed back by
`datetime.fromisoformat`) are modelled as `Int` microseconds; only their
order and the subtraction of whole days matter to the code. -/

/-- Model of `timedelta(days=1)` in the microsecond timestamp scale. -/
def microsecondsPerDay : Int := 86400000000

/-- One memory record, with the exact fields `store_memory` writes. -/
structure Memory where
  id : Nat
  content : List Char
  category : List Char
  tags : List (List Char)
  importance : Int
  metadata : List (List Char × List Char)
  created_at : Int
  updated_at : Int
  deriving Repr, DecidableEq

/-- The JSON document `save_user_memories` writes to a user's file. -/
structure Container where
  user_id : List Char
  last_updated : Int
  total_memories : Nat
  memories : List Memory
  deriving Repr, DecidableEq

/-- A file in the memories directory: either a decodable JSON container or
bytes `json.load` rejects (`json.JSONDecodeError`). -/
inductive FileData where
  | json (c : Container)
  | garbage
  deriving Repr, DecidableEq

/-- The flat `memento_memories` directory: file name → contents. -/
def FS : Type := List Char → Option FileData

/-- Write (or with `none`, remove) one directory entry. -/
def FS.update (fs : FS) (p : List Char) (v : Option FileData) : FS :=
  fun q => if q = p then v else fs q

def USER_FILE_EXTENSION : List Char := ".json".data

/-- Model of `re.sub(r'[^\w\-@.]', '_', user_id)`: the replaced-characters part of
`sanitize_user_id`. -/
def safe_chars (user_id : List Char) : List Char :=
  user_id.map (fun c => if isWordChar c ∨ c = '-' ∨ c = '@' ∨ c = '.' then c else '_')

/-- Model of `sanitize_user_id`: sanitized characters, `_`, then the first 8 hex
characters of the MD5 of the original identifier. -/
def sanitize_user_id (user_id : List Char) : List Char :=
  safe_chars user_id ++ '_' :: md5hex8 user_id

/-- Model of `get_user_file_path`: the user's file name inside `memento_memories`. -/
def get_user_file_path (user_id : List Char) : List Char :=
  sanitize_user_id user_id ++ USER_FILE_EXTENSION

/-- Model of `load_user_memories`: absent file gives `[]`; a `json.JSONDecodeError`
is caught and logged and also gives `[]`. -/
def load_user_memories (fs : FS) (user_id : List Char) : List Memory :=
  match fs (get_user_file_path user_id) with
  | none => []
  | some (.json c) => c.memories
  | some .garbage => []

/-- The name `tempfile.NamedTemporaryFile(dir=...)` picks: `tmp` plus random
characters drawn from lowercase letters, digits and `_` (never `.`). -/
def tempName (nonce : List Char) : List Char := "tmp".data ++ nonce

/-- The JSON document `save_user_memories` assembles. -/
def saveDoc (user_id : List Char) (memories : List Memory) (now : Int) : Container :=
  { user_id := user_id, last_updated := now,
    total_memories := memories.length, memories := memories }

/-- The successive directory states of one `save_user_memories` call:
initial; temp file created and partially written; temp file fully written;
temp file renamed onto the user's file (`shutil.move`). -/
def saveStates (fs : FS) (user_id : List Char) (memories : List Memory)
    (now : Int) (nonce : List Char) : List FS :=
  let tmp := tempName nonce
  let target := get_user_file_path user_id
  let d := FileData.json (saveDoc user_id memories now)
  [fs,
   fs.update tmp (some .garbage),
   fs.update tmp (some d),
   ((fs.update tmp (some d)).update tmp none).update target (some d)]

/-- Model of `save_user_memories`: the state after the atomic rename. -/
def save_user_memories (fs : FS) (user_id : List Char) (memories : List Memory)
    (now : Int) (nonce : List Char) : FS :=
  (((fs.update (tempName nonce) (some (.json (saveDoc user_id memories now)))).update
      (tempName nonce) none)).update (get_user_file_path user_id)
    (some (.json (saveDoc user_id memories now)))

/-- Model of `max([m.get('id', 0) for m in memories], default=0)`. -/
def maxId (memories : List Memory) : Nat :=
  (memories.map (fun m => m.id)).foldr max 0

/-- Python truthiness defaulting: `category or 'general'`, `tags or []`,
`metadata or {}`. -/
def orGeneral (category : Option (List Char)) : List Char :=
  match category with
  | some s => if s = [] then "general".data else s
  | none => "general".data

/-- Model of `store_memory`: load, assign `max + 1`, append, save; returns the new id
and the directory after the save. -/
def store_memory (fs : FS) (user_id content : List Char)
    (category : Option (List Char)) (tags : Option (List (List Char)))
    (importance : Int) (metadata : Option (List (List Char × List Char)))
    (now : Int) (nonce : List Char) : Nat × FS :=
  let memories := load_user_memories fs user_id
  let memory_id := maxId memories + 1
  let new_memory : Memory :=
    { id := memory_id, content := content, category := orGeneral category,
      tags := tags.getD [], importance := importance,
      metadata := metadata.getD [], created_at := now, updated_at := now }
  (memory_id, save_user_memories fs user_id (memories ++ [new_memory]) now nonce)

/-- The record `store_memory` appends, given the state it read. -/
def newMemoryOf (fs : FS) (user_id content : List Char)
    (category : Option (List Char)) (tags : Option (List (List Char)))
    (importance : Int) (metadata : Option (List (List Char × List Char)))
    (now : Int) : Memory :=
  { id := maxId (load_user_memories fs user_id) + 1, content := content,
    category := orGeneral category, tags := tags.getD [],
    importance := importance, metadata := metadata.getD [],
    created_at := now, updated_at := now }

/-- Python truthiness of an optional string argument. -/
def truthyS : Option (List Char) → Bool
  | none => false
  | some s => !s.isEmpty

/-- Python truthiness of an optional integer argument (`0` is falsy). -/
def truthyI : Option Int → Bool
  | none => false
  | some d => d != 0

/-- Python's `needle in hay` on strings: contiguous substring containment
(the empty needle is contained in everything). -/
def hasSub (needle : List Char) : List Char → Bool
  | [] => needle.isEmpty
  | c :: rest => needle.isPrefixOf (c :: rest) || hasSub needle rest

/-- The query test of `search_memories`: lowercased substring match against
content, then category, then any tag. -/
def queryMatch (query : List Char) (m : Memory) : Bool :=
  hasSub (lowerStr query) (lowerStr m.content) ||
  hasSub (lowerStr query) (lowerStr m.category) ||
  m.tags.any (fun t => hasSub (lowerStr query) (lowerStr t))

/-- The `continue`-based filter body of `search_memories`: a record is kept
when no filter dismisses it. -/
def codeKeep (now : Int) (query category : Option (List Char))
    (days_back : Option Int) (m : Memory) : Bool :=
  !(truthyS category && !(m.category == category.getD [])) &&
  !(truthyI days_back &&
      decide (m.created_at < now - days_back.getD 0 * microsecondsPerDay)) &&
  !(truthyS query && !queryMatch (query.getD []) m)

/-- The sort key of `search_memories`:
`(datetime.fromisoformat(m['created_at']), m.get('importance', 5))`. -/
def sortKey (m : Memory) : Int × Int := (m.created_at, m.importance)

/-- Strict lexicographic order on sort keys (Python tuple `<`). -/
def keyLt (a b : Memory) : Bool :=
  decide (a.created_at < b.created_at ∨
    (a.created_at = b.created_at ∧ a.importance < b.importance))

/-- Non-strict lexicographic order on sort keys. -/
def keyLe (a b : Memory) : Bool :=
  decide (a.created_at < b.created_at ∨
    (a.created_at = b.created_at ∧ a.importance ≤ b.importance))

/-- Whether `x` must precede `y` in Python's stable descending sort: strictly larger
key, or equal key and earlier original position. -/
def sortPrec (x y : Memory × Nat) : Bool :=
  keyLt y.1 x.1 || (!keyLt y.1 x.1 && !keyLt x.1 y.1 && decide (x.2 < y.2))

/-- Insert into a list already ordered by `sortPrec`. -/
def sortIns (x : Memory × Nat) : List (Memory × Nat) → List (Memory × Nat)
  | [] => [x]
  | y :: ys => if sortPrec x y then x :: y :: ys else y :: sortIns x ys

def sortRun : List (Memory × Nat) → List (Memory × Nat)
  | [] => []
  | x :: xs => sortIns x (sortRun xs)

/-- Model of `list.sort(key=..., reverse=True)`: stable descending — order by key
descending, original position breaking ties. -/
def pySortDesc (l : List Memory) : List Memory :=
  (sortRun (l.enum.map (fun p => (p.2, p.1)))).map Prod.fst

/-- Model of `search_memories`: load, filter, stable-sort descending, slice to
`limit`. -/
def search_memories (fs : FS) (user_id : List Char)
    (query category : Option (List Char)) (days_back : Option Int)
    (limit : Nat) (now : Int) : List Memory :=
  let memories := load_user_memories fs user_id
  let filtered_memories := memories.filter (codeKeep now query category days_back)
  (pySortDesc filtered_memories).take limit

/-! ## CommandInterpreter: `MementoParser.parse_store_command`

Every regular expression involved is a word-boundary alternation of fixed
words, so it is modelled by a direct scan.  `re.sub` scans left to right
without overlap and evaluates `\b` against the string being scanned; every
pattern word begins and ends with a word character, so the opening `\b`
holds exactly when the preceding character is absent or not a word
character, and the closing `\b` exactly when the following character is
absent or not a word character.  The `re.IGNORECASE` flags are moot: the
scanned text is already lowercased and the patterns are lowercase. -/

/-- The closing `\b` after a candidate match. -/
def boundaryAfter : List Char → Bool
  | [] => true
  | c :: _ => !isWordChar c

/-- Word-character status of a pattern's last character (patterns are never
empty, so the default is irrelevant). -/
def lastIsWord (w : List Char) : Bool :=
  match w.reverse with
  | c :: _ => isWordChar c
  | [] => true

/-- The first pattern of `ws` (regex alternation order) matching
`\b`-delimited at exactly this position. -/
def findMatch (ws : List (List Char)) (prevWord : Bool) (s : List Char) :
    Option (List Char) :=
  if prevWord then none
  else ws.find? (fun w => w.isPrefixOf s && boundaryAfter (s.drop w.length))

/-- Model of `re.sub(r'\b(w₁|w₂|…)\b', '', s)`: remove every `\b`-delimited
occurrence, scanning left to right.  Fuelled structural recursion so the
kernel can evaluate it; fuel `s.length` suffices, every step consuming at
least one character. -/
def removeWordsAux (ws : List (List Char)) : Nat → Bool → List Char → List Char
  | 0, _, s => s
  | _ + 1, _, [] => []
  | fuel + 1, prevWord, c :: rest =>
    match findMatch ws prevWord (c :: rest) with
    | some w => removeWordsAux ws fuel (lastIsWord w) ((c :: rest).drop w.length)
    | none => c :: removeWordsAux ws fuel (isWordChar c) rest

def removeWords (ws : List (List Char)) (s : List Char) : List Char :=
  removeWordsAux ws s.length false s

/-- Model of `re.search(r'\b(w₁|w₂|…)\b', s)` as a truth value. -/
def hasWordAux (ws : List (List Char)) : Bool → List Char → Bool
  | _, [] => false
  | prevWord, c :: rest =>
    (findMatch ws prevWord (c :: rest)).isSome || hasWordAux ws (isWordChar c) rest

def hasWord (ws : List (List Char)) (s : List Char) : Bool := hasWordAux ws false s

/-- Model of `re.findall(r'#(\w+)', s)`: the captured word runs after `#` signs. -/
def hashtagsAux : Nat → List Char → List (List Char)
  | 0, _ => []
  | _ + 1, [] => []
  | fuel + 1, c :: rest =>
    if c = '#' then
      let run := rest.takeWhile isWordChar
      if run.isEmpty then hashtagsAux fuel rest
      else run :: hashtagsAux fuel (rest.drop run.length)
    else hashtagsAux fuel rest

def hashtags (s : List Char) : List (List Char) := hashtagsAux s.length s

/-- Model of `re.sub(r'#\w+', '', s)`. -/
def removeHashAux : Nat → List Char → List Char
  | 0, s => s
  | _ + 1, [] => []
  | fuel + 1, c :: rest =>
    if c = '#' then
      let run := rest.takeWhile isWordChar
      if run.isEmpty then c :: removeHashAux fuel rest
      else removeHashAux fuel (rest.drop run.length)
    else c :: removeHashAux fuel rest

def removeHash (s : List Char) : List Char := removeHashAux s.length s

/-- The trigger phrases, removed one `re.sub` at a time, in this order. -/
def triggers : List (List Char) :=
  ["hey memento", "memento", "remember", "store", "save"].map String.data

/-- The category keyword clusters of `parse_store_command`, in Python dict
order (first matching cluster wins). -/
def category_patterns : List (List Char × List (List Char)) :=
  [("work".data,
    ["work", "job", "meeting", "project", "task", "deadline", "office"].map String.data),
   ("personal".data,
    ["personal", "family", "friend", "home", "private"].map String.data),
   ("ideas".data,
    ["idea", "thought", "concept", "brainstorm", "inspiration"].map String.data),
   ("tasks".data,
    ["todo", "task", "reminder", "do", "complete", "finish"].map String.data),
   ("notes".data,
    ["note", "jot", "write down", "record", "remember"].map String.data),
   ("contacts".data,
    ["contact", "person", "phone", "email", "address"].map String.data),
   ("events".data,
    ["meeting", "event", "appointment", "conference", "call"].map String.data)]

/-- The first cluster whose pattern matches, else `None`. -/
def detectCategory (pats : List (List Char × List (List Char)))
    (s : List Char) : Option (List Char) :=
  match pats.find? (fun p => hasWord p.2 s) with
  | some p => some p.1
  | none => none

def urgentWords : List (List Char) :=
  ["important", "urgent", "critical", "crucial"].map String.data

def minorWords : List (List Char) :=
  ["minor", "small", "simple", "low"].map String.data

structure ParsedStore where
  content : List Char
  category : Option (List Char)
  tags : List (List Char)
  importance : Int
  deriving Repr, DecidableEq

/-- Model of `MementoParser.parse_store_command`. -/
def parse_store_command (text : List Char) : ParsedStore :=
  let clean_text := strip (triggers.foldl (fun s t => removeWords [t] s) (lowerStr text))
  let detected_category := detectCategory category_patterns clean_text
  let tags := hashtags text
  let importance : Int :=
    if hasWord urgentWords clean_text then 8
    else if hasWord minorWords clean_text then 3
    else 5
  let content := strip (removeWords (urgentWords ++ minorWords) (strip (removeHash clean_text)))
  { content := content, category := detected_category, tags := tags,
    importance := importance }

/-! ## The tool-layer store of `mcpmemento/memento_mcp_server.py`

That server keeps one directory per user under `memento_storage`, with a
content file and a `.meta` JSON per stored memory.  Its `store_memory`
tool validates `user_id` and `content` before writing anything.  Wall
clock strings (`strftime('%Y%m%d_%H%M%S')` and `isoformat()`) are opaque
parameters here. -/

namespace McpServer

structure McpMeta where
  filename : List Char
  timestamp : List Char
  content_hash : List Char
  size : Nat
  tags : List (List Char)
  description : List Char
  stored_filename : List Char
  deriving Repr, DecidableEq

inductive McpFile where
  | text (content : List Char)
  | meta (m : McpMeta)
  deriving Repr, DecidableEq

/-- The `memento_storage` tree: (user directory name, file name) → contents. -/
def McpFS : Type := List Char × List Char → Option McpFile

/-- Model of `get_user_directory`: `re.sub(r'[^a-zA-Z0-9_-]', '_', user_id)`. -/
def mcp_safe_user (user_id : List Char) : List Char :=
  user_id.map (fun c => if isWordChar c ∨ c = '-' then c else '_')

/-- Model of `re.sub(r'[^a-zA-Z0-9._-]', '_', filename)` in `save_user_file`. -/
def mcp_safe_filename (filename : List Char) : List Char :=
  filename.map (fun c => if isWordChar c ∨ c = '-' ∨ c = '.' then c else '_')

/-- Model of `create_file_metadata`. -/
def create_file_metadata (filename content : List Char)
    (tags : List (List Char)) (isoNow : List Char) : McpMeta :=
  { filename := filename, timestamp := isoNow,
    content_hash := MD5.hexDigest (utf8 content), size := content.length,
    tags := tags, description := [], stored_filename := [] }

/-- Model of `save_user_file`: write the content file and its `.meta`, and return
the success message. -/
def save_user_file (st : McpFS) (user_id filename content description : List Char)
    (tags : List (List Char)) (tsStr isoNow : List Char) : McpFS × List Char :=
  let user_dir := mcp_safe_user user_id
  let stored_filename := tsStr ++ '_' :: mcp_safe_filename filename
  let metadata :=
    { create_file_metadata filename content tags isoNow with
      stored_filename := stored_filename, description := description }
  let st1 : McpFS := fun k =>
    if k = (user_dir, stored_filename) then some (.text content) else st k
  let st2 : McpFS := fun k =>
    if k = (user_dir, stored_filename ++ ".meta".data) then some (.meta metadata)
    else st1 k
  (st2, "Successfully stored '".data ++ filename ++ "' for user ".data ++
    user_id ++ " as ".data ++ stored_filename)

/-- Model of the tag parsing `[tag.strip() for tag in tags.split(",") if tag.strip()] if tags else []`. -/
def splitTags (tags : List Char) : List (List Char) :=
  if tags = [] then []
  else ((tags.splitOn ',').map strip).filter (fun t => !t.isEmpty)

/-- The `store_memory` tool: validation, default file name, tag parsing,
then `save_user_file`.  Returns the (possibly unchanged) storage and the
result string. -/
def mcp_store_memory (st : McpFS) (user_id content : List Char)
    (filename : Option (List Char)) (description tags : List Char)
    (tsStr isoNow : List Char) : McpFS × List Char :=
  if strip user_id = [] then (st, "Error: user_id is required".data)
  else if strip content = [] then (st, "Error: content cannot be empty".data)
  else
    let fname :=
      match filename with
      | some f => if f = [] then "memory_".data ++ tsStr ++ ".txt".data else f
      | none => "memory_".data ++ tsStr ++ ".txt".data
    let tag_list := splitTags tags
    save_user_file st user_id fname content description tag_list tsStr isoNow

end McpServer

/-! ## Derived notions used by the statements -/

/-- The arguments of one `store_memory` call (wall clock and the random
temp-file name chosen by `tempfile` are explicit inputs). -/
structure StoreCall where
  content : List Char
  category : Option (List Char)
  tags : Option (List (List Char))
  importance : Int
  metadata : Option (List (List Char × List Char))
  now : Int
  nonce : List Char
  deriving Repr, DecidableEq

/-- A serialized sequence of `store_memory` calls for one user. -/
def applyStores (fs : FS) (user_id : List Char) : List StoreCall → FS
  | [] => fs
  | k :: rest =>
    applyStores (store_memory fs user_id k.content k.category k.tags
      k.importance k.metadata k.now k.nonce).2 user_id rest

/-- The search filter as the specification words it: a given non-empty
`category` requires an exact match; a given non-zero `daysBack` requires
`created_at` on or after `now` minus that many days; a given non-empty
`query` requires a case-insensitive substring match against the content,
or any tag, or the category. -/
def specPassesB (now : Int) (query category : Option (List Char))
    (days_back : Option Int) (m : Memory) : Bool :=
  (match category with
   | some s => if s = [] then true else m.category == s
   | none => true) &&
  (match days_back with
   | some k => if k = 0 then true
       else decide (now - k * microsecondsPerDay ≤ m.created_at)
   | none => true) &&
  (match query with
   | some s => if s = [] then true else
       hasSub (lowerStr s) (lowerStr m.content) ||
       m.tags.any (fun t => hasSub (lowerStr s) (lowerStr t)) ||
       hasSub (lowerStr s) (lowerStr m.category)
   | none => true)

/-- The empty memories directory. -/
def emptyFS : FS := fun _ => none

/-- The empty `memento_storage` tree. -/
def emptyMcpFS : McpServer.McpFS := fun _ => none

/-- A directory whose only entry is a corrupt (undecodable) container for
user `alice`. -/
def corruptAliceFS : FS :=
  emptyFS.update (get_user_file_path "alice".data) (some .garbage)

/-- A directory holding one committed record for user `dana`, created at
timestamp 0. -/
def oldMemory : Memory :=
  { id := 1, content := "old note".data, category := "general".data,
    tags := [], importance := 5, metadata := [], created_at := 0,
    updated_at := 0 }

def danaFS : FS :=
  emptyFS.update (get_user_file_path "dana".data)
    (some (.json (saveDoc "dana".data [oldMemory] 0)))

/-- The parser scenario sentence. -/
def c8text : List Char :=
  "Hey Memento, remember that my dentist appointment is next Tuesday #health #important".data

/-- Two distinct raw identifiers with the same sanitized form and the same
truncated MD5: their container paths coincide. -/
def collideA : List Char := "u!!?^|+".data

def collideB : List Char := "u!!:;*=".data

/-- The descending order `search_memories` promises: `created_at`
descending, ties by `importance` descending. -/
def sortedDesc (l : List Memory) : Prop :=
  l.Pairwise (fun a b => keyLe b a = true)

/-- One concrete store call used by witnesses. -/
def hiCall : StoreCall :=
  { content := "hi".data, category := none, tags := none, importance := 5,
    metadata := none, now := 0, nonce := "x1y2z3".data }

/-- The record a first store of `secret` creates at time 0. -/
def secretMemory : Memory :=
  { id := 1, content := "secret".data, category := "general".data,
    tags := [], importance := 5, metadata := [], created_at := 0,
    updated_at := 0 }

/-- The record a first store of empty content creates at time 0. -/
def emptyContentMemory : Memory :=
  { id := 1, content := [], category := "general".data, tags := [],
    importance := 5, metadata := [], created_at := 0, updated_at := 0 }

/-- The record a first store of `new note` creates at time 0. -/
def newNoteMemory : Memory :=
  { id := 1, content := "new note".data, category := "general".data,
    tags := [], importance := 5, metadata := [], created_at := 0,
    updated_at := 0 }

end Memento

namespace Memento

/-! ## Sanity checks of the MD5 model (RFC 1321 test vectors) -/

example : MD5.hexDigest [] = "d41d8cd98f00b204e9800998ecf8427e".data := by decide

example : MD5.hexDigest (utf8 "abc".data) =
    "900150983cd24fb0d6963f7d28e17f72".data := by decide

/-! ## Helper lemmas: digests, paths and directory updates -/

theorem length_toLE (k n : Nat) : (MD5.toLE k n).length = k := by
  simp [MD5.toLE]

theorem mem_toLE_lt {k n b : Nat} (h : b ∈ MD5.toLE k n) : b < 256 := by
  simp [MD5.toLE] at h
  obtain ⟨i, _, rfl⟩ := h
  exact Nat.mod_lt _ (by norm_num)

theorem length_digestBytes (msg : List Nat) : (MD5.digestBytes msg).length = 16 := by
  simp [MD5.digestBytes, length_toLE]

theorem mem_digestBytes_lt {msg : List Nat} {b : Nat}
    (h : b ∈ MD5.digestBytes msg) : b < 256 := by
  simp only [MD5.digestBytes, List.mem_append] at h
  rcases h with ((h | h) | h) | h <;> exact mem_toLE_lt h

theorem flatMap_pair_length (l : List Nat) (f g : Nat → Char) :
    (l.flatMap (fun b => [f b, g b])).length = 2 * l.length := by
  induction l with
  | nil => rfl
  | cons x xs ih => simp [ih]; omega

theorem length_hexDigest (msg : List Nat) : (MD5.hexDigest msg).length = 32 := by
  rw [MD5.hexDigest, flatMap_pair_length, length_digestBytes]

theorem length_md5hex8 (s : List Char) : (md5hex8 s).length = 8 := by
  simp [md5hex8, length_hexDigest]

theorem mem_hexDigest_hexChar {msg : List Nat} {c : Char}
    (h : c ∈ MD5.hexDigest msg) : ∃ m, m < 16 ∧ c = MD5.hexChar m := by
  simp only [MD5.hexDigest, List.mem_flatMap] at h
  obtain ⟨b, hb, hc⟩ := h
  have hb256 : b < 256 := mem_digestBytes_lt hb
  simp only [List.mem_cons, List.mem_singleton, List.not_mem_nil, or_false] at hc
  rcases hc with rfl | rfl
  · exact ⟨b / 16, by omega, rfl⟩
  · exact ⟨b % 16, by omega, rfl⟩

theorem hexChar_not_separator :
    ∀ m, m < 16 → MD5.hexChar m ≠ '/' ∧ MD5.hexChar m ≠ '\\' := by decide

theorem safe_chars_mem {u : List Char} {c : Char} (h : c ∈ safe_chars u) :
    isWordChar c = true ∨ c = '-' ∨ c = '@' ∨ c = '.' ∨ c = '_' := by
  simp only [safe_chars, List.mem_map] at h
  obtain ⟨a, _, rfl⟩ := h
  split
  · rename_i hc
    rcases hc with hc | hc | hc | hc
    · exact Or.inl hc
    · exact Or.inr (Or.inl hc)
    · exact Or.inr (Or.inr (Or.inl hc))
    · exact Or.inr (Or.inr (Or.inr (Or.inl hc)))
  · exact Or.inr (Or.inr (Or.inr (Or.inr rfl)))

theorem path_chars {u : List Char} {c : Char} (h : c ∈ get_user_file_path u) :
    c ≠ '/' ∧ c ≠ '\\' := by
  simp only [get_user_file_path, sanitize_user_id, USER_FILE_EXTENSION,
    List.append_assoc, List.mem_append, List.cons_append, List.mem_cons] at h
  rcases h with h | rfl | h | h
  · rcases safe_chars_mem h with h | rfl | rfl | rfl | rfl <;>
      first
        | (constructor <;> (intro hc; subst hc; simp [isWordChar] at h))
        | (constructor <;> decide)
  · constructor <;> decide
  · obtain ⟨m, hm, rfl⟩ := mem_hexDigest_hexChar (List.mem_of_mem_take h)
    exact hexChar_not_separator m hm
  · rcases h with rfl | rfl | rfl | rfl | rfl | h
    · constructor <;> decide
    · constructor <;> decide
    · constructor <;> decide
    · constructor <;> decide
    · constructor <;> decide
    · simp at h

theorem length_path (u : List Char) :
    (get_user_file_path u).length = u.length + 14 := by
  simp [get_user_file_path, sanitize_user_id, safe_chars, USER_FILE_EXTENSION,
    length_md5hex8]

theorem dot_mem_path (u : List Char) : '.' ∈ get_user_file_path u := by
  simp only [get_user_file_path, USER_FILE_EXTENSION, List.mem_append]
  exact Or.inr (by decide)

theorem tempName_ne_path {nonce : List Char} (u : List Char)
    (h : '.' ∉ nonce) : tempName nonce ≠ get_user_file_path u := by
  intro he
  have hd := dot_mem_path u
  rw [← he] at hd
  simp only [tempName, List.mem_append] at hd
  rcases hd with hd | hd
  · simp at hd
  · exact h hd

theorem update_same (fs : FS) (p : List Char) (v : Option FileData) :
    fs.update p v p = v := by
  simp [FS.update]

theorem update_other {p q : List Char} (fs : FS) (v : Option FileData)
    (h : q ≠ p) : fs.update p v q = fs q := by
  simp [FS.update, h]

theorem save_at_target (fs : FS) (u : List Char) (mems : List Memory)
    (now : Int) (nonce : List Char) :
    save_user_memories fs u mems now nonce (get_user_file_path u) =
      some (.json (saveDoc u mems now)) := by
  simp [save_user_memories, FS.update]

theorem save_at_other {u p : List Char} (fs : FS) (mems : List Memory)
    (now : Int) (nonce : List Char) (hp : p ≠ get_user_file_path u)
    (ht : p ≠ tempName nonce) :
    save_user_memories fs u mems now nonce p = fs p := by
  simp [save_user_memories, FS.update, hp, ht]

theorem load_store (fs : FS) (u c : List Char) (cat : Option (List Char))
    (t : Option (List (List Char))) (imp : Int)
    (md : Option (List (List Char × List Char))) (now : Int) (nonce : List Char) :
    load_user_memories (store_memory fs u c cat t imp md now nonce).2 u =
      load_user_memories fs u ++ [newMemoryOf fs u c cat t imp md now] := by
  conv_lhs => rw [load_user_memories]
  rw [store_memory]
  simp only [save_at_target]
  rfl

theorem store_frame {u p : List Char} (fs : FS) (c : List Char)
    (cat : Option (List Char)) (t : Option (List (List Char))) (imp : Int)
    (md : Option (List (List Char × List Char))) (now : Int) (nonce : List Char)
    (hp : p ≠ get_user_file_path u) (ht : p ≠ tempName nonce) :
    (store_memory fs u c cat t imp md now nonce).2 p = fs p := by
  rw [store_memory]
  exact save_at_other _ _ _ _ hp ht

theorem load_congr {fs fs' : FS} {u : List Char}
    (h : fs (get_user_file_path u) = fs' (get_user_file_path u)) :
    load_user_memories fs u = load_user_memories fs' u := by
  rw [load_user_memories, load_user_memories, h]

theorem search_congr {fs fs' : FS} {u : List Char}
    (h : fs (get_user_file_path u) = fs' (get_user_file_path u))
    (q c : Option (List Char)) (d : Option Int) (lim : Nat) (now : Int) :
    search_memories fs u q c d lim now = search_memories fs' u q c d lim now := by
  rw [search_memories, search_memories, load_congr h]

theorem applyStores_other_user {u1 u2 : List Char} (fs : FS)
    (calls : List StoreCall)
    (hpath : get_user_file_path u2 ≠ get_user_file_path u1)
    (hn : ∀ k ∈ calls, '.' ∉ k.nonce) :
    applyStores fs u1 calls (get_user_file_path u2) =
      fs (get_user_file_path u2) := by
  induction calls generalizing fs with
  | nil => rfl
  | cons k rest ih =>
    rw [applyStores, ih _ (fun x hx => hn x (List.mem_cons_of_mem _ hx))]
    exact store_frame _ _ _ _ _ _ _ _ hpath
      (Ne.symm (tempName_ne_path u2 (hn k (List.mem_cons_self k rest))))

/-! ## C2: atomic snapshot persistence -/

/-- C2: every store writes the full snapshot to a temporary file inside the
storage root and installs it with one atomic rename: at every interruption
point before the rename the user's container file is unchanged, after the
rename it holds exactly the new snapshot, and at every point a reader
finds either no container or a fully parseable one — never the partially
written temp data.  (The hypotheses say the temp-file name contains no dot
— `tempfile` draws from letters, digits and `_` — and that the container
started absent or parseable.) -/
theorem atomic_snapshot (fs : FS) (u : List Char) (mems : List Memory)
    (now : Int) (nonce : List Char) (hn : '.' ∉ nonce)
    (hwf : fs (get_user_file_path u) = none ∨
      ∃ c, fs (get_user_file_path u) = some (.json c)) :
    (∀ st ∈ (saveStates fs u mems now nonce).dropLast,
      st (get_user_file_path u) = fs (get_user_file_path u)) ∧
    save_user_memories fs u mems now nonce (get_user_file_path u) =
      some (.json (saveDoc u mems now)) ∧
    (∀ st ∈ saveStates fs u mems now nonce,
      st (get_user_file_path u) = none ∨
      ∃ c, st (get_user_file_path u) = some (.json c)) := by
  have hne : get_user_file_path u ≠ tempName nonce :=
    Ne.symm (tempName_ne_path u hn)
  have h2 : ∀ v, fs.update (tempName nonce) v (get_user_file_path u) =
      fs (get_user_file_path u) := fun v => update_other fs v hne
  refine ⟨?_, save_at_target fs u mems now nonce, ?_⟩
  · intro st hst
    simp only [saveStates, List.dropLast, List.mem_cons, List.not_mem_nil,
      or_false] at hst
    rcases hst with rfl | rfl | rfl
    · rfl
    · exact h2 _
    · exact h2 _
  · intro st hst
    simp only [saveStates, List.mem_cons, List.not_mem_nil, or_false] at hst
    rcases hst with rfl | rfl | rfl | rfl
    · exact hwf
    · rw [h2]; exact hwf
    · rw [h2]; exact hwf
    · exact Or.inr ⟨saveDoc u mems now, update_same _ _ _⟩

theorem atomic_snapshot_witness :
    ('.' ∉ "abcdefgh".data) ∧
    (emptyFS (get_user_file_path "walt".data) = none ∨
      ∃ c, emptyFS (get_user_file_path "walt".data) = some (.json c)) ∧
    ((∀ st ∈ (saveStates emptyFS "walt".data [] 0 "abcdefgh".data).dropLast,
      st (get_user_file_path "walt".data) = emptyFS (get_user_file_path "walt".data)) ∧
    save_user_memories emptyFS "walt".data [] 0 "abcdefgh".data
        (get_user_file_path "walt".data) =
      some (.json (saveDoc "walt".data [] 0)) ∧
    (∀ st ∈ saveStates emptyFS "walt".data [] 0 "abcdefgh".data,
      st (get_user_file_path "walt".data) = none ∨
      ∃ c, st (get_user_file_path "walt".data) = some (.json c))) :=
  ⟨by decide, Or.inl rfl,
    atomic_snapshot emptyFS "walt".data [] 0 "abcdefgh".data (by decide)
      (Or.inl rfl)⟩

/-! ## C1: user isolation -/

/-- C1 (amended): whenever two user identifiers resolve to distinct
container paths — which holds except for truncated-MD5 collisions between
identically sanitized identifiers — any serialized sequence of stores for
the first user leaves the second user's container entry untouched, and a
subsequent search for the second user returns exactly what it returned
before.  The temp files written along the way cannot be any user's
container (their names carry no dot, container names end in `.json`). -/
theorem store_search_isolated (fs : FS) (u1 u2 : List Char)
    (calls : List StoreCall) (q c : Option (List Char)) (d : Option Int)
    (lim : Nat) (now : Int)
    (hpath : get_user_file_path u1 ≠ get_user_file_path u2)
    (hn : ∀ k ∈ calls, '.' ∉ k.nonce) :
    applyStores fs u1 calls (get_user_file_path u2) =
      fs (get_user_file_path u2) ∧
    search_memories (applyStores fs u1 calls) u2 q c d lim now =
      search_memories fs u2 q c d lim now := by
  have hframe := applyStores_other_user fs calls (Ne.symm hpath) hn
  exact ⟨hframe, search_congr hframe q c d lim now⟩

theorem store_search_isolated_witness :
    (get_user_file_path "alice".data ≠ get_user_file_path "bob".data) ∧
    (∀ k ∈ [hiCall], '.' ∉ k.nonce) ∧
    (applyStores emptyFS "alice".data [hiCall] (get_user_file_path "bob".data) =
      emptyFS (get_user_file_path "bob".data) ∧
    search_memories (applyStores emptyFS "alice".data [hiCall]) "bob".data
        none none none 10 0 =
      search_memories emptyFS "bob".data none none none 10 0) :=
  ⟨by decide, by decide,
    store_search_isolated emptyFS "alice".data "bob".data [hiCall] none none
      none 10 0 (by decide) (by decide)⟩

/-- C1 counterexample: the two distinct identifiers `u!!?^|+` and `u!!:;*=`
sanitize identically and share the truncated MD5 `adce32db`, so they share
one container file: after storing `secret` for the first, a search for the
second returns that very record. -/
theorem store_search_isolated_cex :
    collideA ≠ collideB ∧
    search_memories
        (store_memory emptyFS collideA "secret".data none none 5 none 0
          "abcdefgh".data).2 collideB none none none 50 0 =
      [secretMemory] := by decide

/-! ## C9: no lost writes under serialization -/

/-- C9: each store rewrites the user's snapshot to exactly the previously
committed records, unchanged and in order, plus one appended record; hence
over any serialized sequence of stores the snapshot only ever grows, one
record per completed call, and no completed write is lost.  (The model is
serialized by construction, matching the spec's stated proviso.) -/
theorem store_append_only :
    (∀ (fs : FS) (u c : List Char) (cat : Option (List Char))
      (t : Option (List (List Char))) (imp : Int)
      (md : Option (List (List Char × List Char))) (now : Int)
      (nonce : List Char),
      load_user_memories (store_memory fs u c cat t imp md now nonce).2 u =
        load_user_memories fs u ++ [newMemoryOf fs u c cat t imp md now]) ∧
    (∀ (fs : FS) (u : List Char) (calls : List StoreCall),
      ∃ added : List Memory,
        load_user_memories (applyStores fs u calls) u =
          load_user_memories fs u ++ added ∧ added.length = calls.length) := by
  refine ⟨load_store, ?_⟩
  intro fs u calls
  induction calls generalizing fs with
  | nil => exact ⟨[], by simp [applyStores]⟩
  | cons k rest ih =>
    obtain ⟨added, h1, h2⟩ :=
      ih (store_memory fs u k.content k.category k.tags k.importance
        k.metadata k.now k.nonce).2
    refine ⟨newMemoryOf fs u k.content k.category k.tags k.importance
      k.metadata k.now :: added, ?_, by simpa using h2⟩
    rw [applyStores, h1, load_store]
    simp

/-! ## C5: id assignment -/

theorem maxId_cons (x : Memory) (l : List Memory) :
    maxId (x :: l) = max x.id (maxId l) := by
  simp [maxId]

theorem maxId_le {l : List Memory} {m : Memory} (h : m ∈ l) :
    m.id ≤ maxId l := by
  induction l with
  | nil => cases h
  | cons x xs ih =>
    rw [maxId_cons]
    rcases List.mem_cons.mp h with rfl | h
    · exact Nat.le_max_left _ _
    · exact Nat.le_trans (ih h) (Nat.le_max_right _ _)

theorem range'_concat_one (s n : Nat) :
    List.range' s (n + 1) = List.range' s n ++ [s + n] := by
  induction n generalizing s with
  | zero => simp
  | succ k ih =>
    rw [List.range'_succ, ih (s + 1), List.range'_succ]
    simp [Nat.add_comm, Nat.add_left_comm, Nat.add_assoc]

theorem foldr_max_range' (n : Nat) :
    (List.range' 1 n).foldr max 0 = n := by
  suffices h : ∀ n a, (List.range' a n).foldr max 0 =
      if n = 0 then 0 else a + n - 1 by
    rcases Nat.eq_zero_or_pos n with rfl | hn
    · simp [h]
    · rw [h, if_neg (by omega)]
      omega
  intro n
  induction n with
  | zero => simp
  | succ k ih =>
    intro a
    rw [List.range'_succ, List.foldr_cons, ih (a + 1)]
    rcases Nat.eq_zero_or_pos k with rfl | hk
    · simp
    · rw [if_neg (by omega), if_neg (by omega)]
      omega

theorem maxId_of_ids {l : List Memory} {k : Nat}
    (h : l.map (fun m => m.id) = List.range' 1 k) : maxId l = k := by
  rw [maxId, h, foldr_max_range']

theorem applyStores_ids {u : List Char} (fs : FS) (calls : List StoreCall)
    (k : Nat)
    (h : (load_user_memories fs u).map (fun m => m.id) = List.range' 1 k) :
    (load_user_memories (applyStores fs u calls) u).map (fun m => m.id) =
      List.range' 1 (k + calls.length) := by
  induction calls generalizing fs k with
  | nil => simpa [applyStores] using h
  | cons kk rest ih =>
    rw [applyStores]
    have hnext : (load_user_memories (store_memory fs u kk.content kk.category
        kk.tags kk.importance kk.metadata kk.now kk.nonce).2 u).map
          (fun m => m.id) = List.range' 1 (k + 1) := by
      rw [load_store, List.map_append, h]
      have hid : (newMemoryOf fs u kk.content kk.category kk.tags
          kk.importance kk.metadata kk.now).id = k + 1 := by
        simp [newMemoryOf, maxId_of_ids h]
      simp only [List.map_cons, List.map_nil, hid]
      rw [range'_concat_one]
      simp [Nat.add_comm]
    have := ih _ (k + 1) hnext
    rw [this]
    congr 1
    simp
    omega

/-- C5: a store always assigns `max(existing ids, default 0) + 1` and
returns it; the fresh id strictly exceeds every id already in the user's
container; and starting from no container, `N` serialized stores leave the
container's ids exactly `1, …, N` in order. -/
theorem store_id_assignment :
    (∀ (fs : FS) (u c : List Char) (cat : Option (List Char))
      (t : Option (List (List Char))) (imp : Int)
      (md : Option (List (List Char × List Char))) (now : Int)
      (nonce : List Char),
      (store_memory fs u c cat t imp md now nonce).1 =
        maxId (load_user_memories fs u) + 1) ∧
    (∀ (fs : FS) (u c : List Char) (cat : Option (List Char))
      (t : Option (List (List Char))) (imp : Int)
      (md : Option (List (List Char × List Char))) (now : Int)
      (nonce : List Char), ∀ m ∈ load_user_memories fs u,
      m.id < (store_memory fs u c cat t imp md now nonce).1) ∧
    (∀ (fs : FS) (u : List Char) (calls : List StoreCall),
      fs (get_user_file_path u) = none →
      (load_user_memories (applyStores fs u calls) u).map (fun m => m.id) =
        List.range' 1 calls.length) := by
  refine ⟨fun _ _ _ _ _ _ _ _ _ => rfl, ?_, ?_⟩
  · intro fs u c cat t imp md now nonce m hm
    exact Nat.lt_succ_of_le (maxId_le hm)
  · intro fs u calls h
    have h0 : (load_user_memories fs u).map (fun m => m.id) =
        List.range' 1 0 := by
      simp [load_user_memories, h]
    simpa using applyStores_ids fs calls 0 h0

theorem store_id_assignment_witness :
    (emptyFS (get_user_file_path "carol".data) = none) ∧
    (load_user_memories (applyStores emptyFS "carol".data [hiCall, hiCall])
        "carol".data).map (fun m => m.id) = List.range' 1 2 :=
  ⟨rfl, store_id_assignment.2.2 emptyFS "carol".data [hiCall, hiCall] rfl⟩

/-! ## C4: search contract -/

theorem keyLe_of_keyLt {a b : Memory} (h : keyLt a b = true) :
    keyLe a b = true := by
  simp only [keyLt, keyLe, decide_eq_true_eq] at h ⊢
  omega

theorem keyLe_of_not_keyLt {a b : Memory} (h : ¬ keyLt a b = true) :
    keyLe b a = true := by
  simp only [keyLt, keyLe, decide_eq_true_eq] at h ⊢
  omega

theorem keyLe_trans {a b c : Memory} (h1 : keyLe a b = true)
    (h2 : keyLe b c = true) : keyLe a c = true := by
  simp only [keyLe, decide_eq_true_eq] at h1 h2 ⊢
  omega

theorem sortPrec_keyLe {x y : Memory × Nat} (h : sortPrec x y = true) :
    keyLe y.1 x.1 = true := by
  simp only [sortPrec, Bool.or_eq_true, Bool.and_eq_true,
    Bool.not_eq_true'] at h
  rcases h with h | ⟨⟨h1, h2⟩, _⟩
  · exact keyLe_of_keyLt h
  · exact keyLe_of_not_keyLt (by simp [h2])

theorem not_sortPrec_keyLe {x y : Memory × Nat} (h : ¬ sortPrec x y = true) :
    keyLe x.1 y.1 = true := by
  simp only [sortPrec, Bool.or_eq_true, Bool.and_eq_true,
    Bool.not_eq_true', not_or, not_and] at h
  exact keyLe_of_not_keyLt (by simp [h.1])

theorem mem_sortIns {x z : Memory × Nat} {l : List (Memory × Nat)}
    (h : z ∈ sortIns x l) : z = x ∨ z ∈ l := by
  induction l with
  | nil => simpa [sortIns] using h
  | cons y ys ih =>
    rw [sortIns] at h
    split at h
    · simpa using h
    · rcases List.mem_cons.mp h with rfl | h
      · simp
      · rcases ih h with rfl | h
        · simp
        · simp [h]

theorem pairwise_sortIns {x : Memory × Nat} {l : List (Memory × Nat)}
    (h : l.Pairwise (fun a b => keyLe b.1 a.1 = true)) :
    (sortIns x l).Pairwise (fun a b => keyLe b.1 a.1 = true) := by
  induction l with
  | nil => simp [sortIns]
  | cons y ys ih =>
    rw [sortIns]
    rcases List.pairwise_cons.mp h with ⟨hy, hys⟩
    split
    · rename_i hp
      refine List.pairwise_cons.mpr ⟨?_, h⟩
      intro z hz
      rcases List.mem_cons.mp hz with rfl | hz
      · exact sortPrec_keyLe hp
      · exact keyLe_trans (hy z hz) (sortPrec_keyLe hp)
    · rename_i hp
      refine List.pairwise_cons.mpr ⟨?_, ih hys⟩
      intro z hz
      rcases mem_sortIns hz with rfl | hz
      · exact not_sortPrec_keyLe hp
      · exact hy z hz

theorem pairwise_sortRun (l : List (Memory × Nat)) :
    (sortRun l).Pairwise (fun a b => keyLe b.1 a.1 = true) := by
  induction l with
  | nil => simp [sortRun]
  | cons x xs ih => exact pairwise_sortIns ih

theorem sortedDesc_pySortDesc (l : List Memory) : sortedDesc (pySortDesc l) := by
  rw [sortedDesc, pySortDesc]
  exact List.Pairwise.map Prod.fst (fun a b h => h)
    (pairwise_sortRun (l.enum.map (fun p => (p.2, p.1))))

theorem sortedDesc_take {l : List Memory} (n : Nat) (h : sortedDesc l) :
    sortedDesc (l.take n) := by
  exact h.sublist (List.take_sublist n l)

theorem codeKeep_eq_spec (now : Int) (q c : Option (List Char))
    (d : Option Int) (m : Memory) :
    codeKeep now q c d m = specPassesB now q c d m := by
  rw [codeKeep, specPassesB.eq_def]
  congr 1
  · congr 1
    · cases c with
      | none => simp [truthyS]
      | some s =>
        by_cases hs : s = [] <;>
          simp [truthyS, hs, List.isEmpty_iff]
    · cases d with
      | none => simp [truthyI]
      | some k =>
        by_cases hk : k = 0
        · simp [truthyI, hk]
        · by_cases hlt : m.created_at < now - k * microsecondsPerDay
          · have hle : ¬ now - k * microsecondsPerDay ≤ m.created_at := by
              omega
            simp [truthyI, hk, hlt, hle]
          · have hle : now - k * microsecondsPerDay ≤ m.created_at := by
              omega
            simp [truthyI, hk, hlt, hle]
  · cases q with
    | none => simp [truthyS]
    | some s =>
      by_cases hs : s = []
      · simp [truthyS, hs]
      · have hne : s.isEmpty = false := by simp [List.isEmpty_iff, hs]
        simp only [truthyS, Option.getD_some, hne, Bool.not_false,
          Bool.true_and, queryMatch, Bool.not_not]
        rw [if_neg hs]
        cases hasSub (lowerStr s) (lowerStr m.content) <;>
          cases hasSub (lowerStr s) (lowerStr m.category) <;>
            cases m.tags.any (fun t => hasSub (lowerStr s) (lowerStr t)) <;>
              rfl

/-- C4 (amended): with no container the search returns the empty list, not
an error; otherwise it returns exactly the loaded records passing the
given filters conjunctively — where, by Python truthiness, a given but
*empty* category or query and a given but *zero* `daysBack` are treated as
absent — stable-sorted by `created_at` descending with ties broken by
`importance` descending, then truncated to `limit`. -/
theorem search_contract (fs : FS) (u : List Char) (q c : Option (List Char))
    (d : Option Int) (lim : Nat) (now : Int) :
    (fs (get_user_file_path u) = none →
      search_memories fs u q c d lim now = []) ∧
    search_memories fs u q c d lim now =
      (pySortDesc ((load_user_memories fs u).filter (specPassesB now q c d))).take
        lim ∧
    sortedDesc (search_memories fs u q c d lim now) ∧
    (search_memories fs u q c d lim now).length ≤ lim := by
  have hfilter : (load_user_memories fs u).filter (codeKeep now q c d) =
      (load_user_memories fs u).filter (specPassesB now q c d) :=
    List.filter_congr (fun m _ => codeKeep_eq_spec now q c d m)
  refine ⟨?_, ?_, ?_, ?_⟩
  · intro h
    simp [search_memories, load_user_memories, h, pySortDesc, sortRun]
  · rw [search_memories, hfilter]
  · rw [search_memories]
    exact sortedDesc_take lim (sortedDesc_pySortDesc _)
  · rw [search_memories]
    exact List.length_take_le lim _

theorem search_contract_witness :
    (emptyFS (get_user_file_path "newuser".data) = none) ∧
    search_memories emptyFS "newuser".data none none none 10 0 = [] :=
  ⟨rfl, (search_contract emptyFS "newuser".data none none none 10 0).1 rfl⟩

/-- C4 counterexample: with `daysBack = 0` the claim requires every
returned record to satisfy `created_at ≥ now - 0 days = now`, but `0` is
falsy in Python, the filter is skipped, and the day-old record is
returned anyway. -/
theorem search_contract_cex :
    oldMemory.created_at < microsecondsPerDay - 0 * microsecondsPerDay ∧
    search_memories danaFS "dana".data none none (some 0) 50
        microsecondsPerDay = [oldMemory] := by decide

/-! ## C3: path resolution -/

/-- C3 (amended): every derived container name stays lexically inside the
storage root — it contains no path separator and is never empty, `.` or
`..` — and combines the sanitized identifier with an 8-character truncated
MD5 of the raw identifier, so identifiers that sanitize alike resolve to
distinct paths *whenever their truncated hashes differ* (they can collide;
see the counterexample); the three example identifiers resolve to three
distinct confined paths. -/
theorem resolve_path_contract :
    (∀ u : List Char, '/' ∉ get_user_file_path u ∧
      '\\' ∉ get_user_file_path u ∧ get_user_file_path u ≠ [] ∧
      get_user_file_path u ≠ ".".data ∧ get_user_file_path u ≠ "..".data) ∧
    (∀ u1 u2 : List Char, safe_chars u1 = safe_chars u2 →
      md5hex8 u1 ≠ md5hex8 u2 →
      get_user_file_path u1 ≠ get_user_file_path u2) ∧
    (get_user_file_path "alice".data ≠ get_user_file_path "alice/../bob".data ∧
      get_user_file_path "alice".data ≠
        get_user_file_path "alice<script>".data ∧
      get_user_file_path "alice/../bob".data ≠
        get_user_file_path "alice<script>".data) := by
  refine ⟨?_, ?_, by decide, by decide, by decide⟩
  · intro u
    refine ⟨fun h => (path_chars h).1 rfl, fun h => (path_chars h).2 rfl,
      ?_, ?_, ?_⟩ <;>
      · intro h
        have hl := length_path u
        rw [h] at hl
        simp at hl
  · intro u1 u2 hs hh heq
    apply hh
    have h2 : safe_chars u1 ++ '_' :: (md5hex8 u1 ++ USER_FILE_EXTENSION) =
        safe_chars u2 ++ '_' :: (md5hex8 u2 ++ USER_FILE_EXTENSION) := by
      simpa [get_user_file_path, sanitize_user_id, List.append_assoc]
        using heq
    rw [hs] at h2
    have h3 := List.append_cancel_left h2
    injection h3 with h4 h5
    exact List.append_cancel_right h5

theorem resolve_path_contract_witness :
    (safe_chars "a!".data = safe_chars "a?".data) ∧
    (md5hex8 "a!".data ≠ md5hex8 "a?".data) ∧
    get_user_file_path "a!".data ≠ get_user_file_path "a?".data :=
  ⟨by decide, by decide,
    resolve_path_contract.2.1 "a!".data "a?".data (by decide) (by decide)⟩

/-- C3 counterexample: two distinct raw identifiers that sanitize to the
same string and nevertheless resolve to the *same* path, because their
8-character truncated MD5 digests coincide. -/
theorem resolve_path_contract_cex :
    collideA ≠ collideB ∧ safe_chars collideA = safe_chars collideB ∧
    get_user_file_path collideA = get_user_file_path collideB := by decide

/-! ## C6: store validation -/

/-- C6 (amended): the tool-layer store of the mcpmemento server rejects an
empty `user_id` or empty `content` with an error result and leaves the
storage untouched; the `MementoFileManager.store_memory` of the
file-based server performs no such validation (see the counterexample). -/
theorem mcp_store_validation (st : McpServer.McpFS)
    (user_id content : List Char) (filename : Option (List Char))
    (description tags tsStr isoNow : List Char)
    (h : user_id = [] ∨ content = []) :
    (McpServer.mcp_store_memory st user_id content filename description tags
      tsStr isoNow).1 = st ∧
    ((McpServer.mcp_store_memory st user_id content filename description tags
        tsStr isoNow).2 = "Error: user_id is required".data ∨
      (McpServer.mcp_store_memory st user_id content filename description tags
        tsStr isoNow).2 = "Error: content cannot be empty".data) := by
  rcases h with rfl | rfl
  · rw [McpServer.mcp_store_memory.eq_def, if_pos (by decide)]
    exact ⟨rfl, Or.inl rfl⟩
  · by_cases hu : strip user_id = []
    · rw [McpServer.mcp_store_memory.eq_def, if_pos hu]
      exact ⟨rfl, Or.inl rfl⟩
    · rw [McpServer.mcp_store_memory.eq_def, if_neg hu, if_pos (by decide)]
      exact ⟨rfl, Or.inr rfl⟩

theorem mcp_store_validation_witness :
    (("" : String).data = [] ∨ "note".data = []) ∧
    ((McpServer.mcp_store_memory emptyMcpFS "".data "note".data none [] []
      [] []).1 = emptyMcpFS ∧
    ((McpServer.mcp_store_memory emptyMcpFS "".data "note".data none [] []
        [] []).2 = "Error: user_id is required".data ∨
      (McpServer.mcp_store_memory emptyMcpFS "".data "note".data none [] []
        [] []).2 = "Error: content cannot be empty".data)) :=
  ⟨Or.inl rfl,
    mcp_store_validation emptyMcpFS "".data "note".data none [] [] [] []
      (Or.inl rfl)⟩

/-- C6 counterexample: the file-based server's store accepts empty content
— it persists a record (content `""`, category defaulted to `general`)
and returns id 1 instead of rejecting the call. -/
theorem store_validation_cex :
    (store_memory emptyFS "u".data [] none none 5 none 0
      "abcdefgh".data).1 = 1 ∧
    load_user_memories (store_memory emptyFS "u".data [] none none 5 none 0
        "abcdefgh".data).2 "u".data = [emptyContentMemory] := by decide

/-! ## C7: behaviour of store on an unreadable container -/

/-- C7 (the code at the claim's failing input): with `alice`'s container
file present but undecodable, `store_memory` does not raise — it treats
the container as empty, succeeds with id 1, and atomically replaces the
corrupt file (the user's only history) with a fresh one-record
snapshot. -/
theorem store_overwrites_corrupt :
    (store_memory corruptAliceFS "alice".data "new note".data none none 5
      none 0 "abcdefgh".data).1 = 1 ∧
    (store_memory corruptAliceFS "alice".data "new note".data none none 5
        none 0 "abcdefgh".data).2 (get_user_file_path "alice".data) =
      some (.json (saveDoc "alice".data [newNoteMemory] 0)) := by decide

/-! ## C8: the parser scenario -/

/-- C8 counterexample: on the scenario sentence the parser does *not*
leave the category unset — `appointment` matches the `events` cluster
(one of the three clusters the claim's list omits). -/
theorem parse_scenario_cex :
    (parse_store_command c8text).category = some "events".data := by decide

/-- C8 (amended): the scenario sentence parses to tags
`{health, important}`, category `events` (via the `appointment` keyword),
importance 8, and the lowercased content with trigger phrases and hashtag
tokens stripped. -/
theorem parse_scenario :
    parse_store_command c8text =
      { content := ",  that my dentist appointment is next tuesday".data,
        category := some "events".data,
        tags := ["health".data, "important".data], importance := 8 } := by
  decide

/-! ## C10: the parsed content is lowercased -/

theorem char_toNat_ofNat {n : Nat} (h : n < 55296) : (Char.ofNat n).toNat = n := by
  have hv : n.isValidChar := Or.inl h
  simp [Char.ofNat, hv, Char.ofNatAux, Char.toNat, UInt32.toNat,
    UInt32.ofNatCore]

theorem mem_lowerStr_not_upper {s : List Char} {c : Char}
    (h : c ∈ lowerStr s) : isUpperAscii c = false := by
  rw [lowerStr, List.mem_map] at h
  obtain ⟨a, _, rfl⟩ := h
  rw [lowerChar]
  split
  · rename_i ha
    have hv : a.toNat + 32 < 55296 := by omega
    rw [isUpperAscii, char_toNat_ofNat hv]
    have h90 : ¬ a.toNat + 32 ≤ 90 := by omega
    simp [h90]
  · rename_i ha
    rw [isUpperAscii]
    rcases Decidable.not_and_iff_or_not.mp ha with ha | ha <;> simp [ha]

theorem mem_strip {s : List Char} {c : Char} (h : c ∈ strip s) : c ∈ s := by
  rw [strip, List.mem_reverse] at h
  have h1 := (List.dropWhile_sublist _).subset h
  rw [List.mem_reverse] at h1
  exact (List.dropWhile_sublist _).subset h1

theorem mem_removeWordsAux {ws : List (List Char)} {c : Char} :
    ∀ {fuel : Nat} {pw : Bool} {s : List Char},
    c ∈ removeWordsAux ws fuel pw s → c ∈ s := by
  intro fuel
  induction fuel with
  | zero => intro pw s h; simpa [removeWordsAux] using h
  | succ n ih =>
    intro pw s h
    cases s with
    | nil => simp [removeWordsAux] at h
    | cons a rest =>
      rcases hm : findMatch ws pw (a :: rest) with _ | w <;>
        simp only [removeWordsAux, hm] at h
      · rcases List.mem_cons.mp h with rfl | h
        · exact List.mem_cons_self _ _
        · exact List.mem_cons_of_mem _ (ih h)
      · exact List.drop_subset _ _ (ih h)

theorem mem_removeWords {ws : List (List Char)} {s : List Char} {c : Char}
    (h : c ∈ removeWords ws s) : c ∈ s := by
  rw [removeWords] at h
  exact mem_removeWordsAux h

theorem mem_removeHashAux {c : Char} :
    ∀ {fuel : Nat} {s : List Char}, c ∈ removeHashAux fuel s → c ∈ s := by
  intro fuel
  induction fuel with
  | zero => intro s h; simpa [removeHashAux] using h
  | succ n ih =>
    intro s h
    cases s with
    | nil => simp [removeHashAux] at h
    | cons a rest =>
      simp only [removeHashAux] at h
      split at h
      · split at h
        · rcases List.mem_cons.mp h with rfl | h
          · exact List.mem_cons_self _ _
          · exact List.mem_cons_of_mem _ (ih h)
        · exact List.mem_cons_of_mem _ (List.drop_subset _ _ (ih h))
      · rcases List.mem_cons.mp h with rfl | h
        · exact List.mem_cons_self _ _
        · exact List.mem_cons_of_mem _ (ih h)

theorem mem_removeHash {s : List Char} {c : Char} (h : c ∈ removeHash s) :
    c ∈ s := by
  rw [removeHash] at h
  exact mem_removeHashAux h

theorem mem_foldl_removeWords {c : Char} :
    ∀ (ts : List (List Char)) (s : List Char),
    c ∈ ts.foldl (fun s t => removeWords [t] s) s → c ∈ s := by
  intro ts
  induction ts with
  | nil => intro s h; simpa using h
  | cons t rest ih =>
    intro s h
    exact mem_removeWords (ih _ h)

/-- C10: for every input text, the content returned by
`parse_store_command` contains no ASCII uppercase letter — the whole text
is lowercased before trigger stripping, and every later step only removes
characters — so the natural-language store path never preserves the
original casing. -/
theorem parse_content_lowercased (text : List Char) :
    (parse_store_command text).content.all (fun c => !isUpperAscii c) = true := by
  rw [List.all_eq_true]
  intro c hc
  simp only [parse_store_command] at hc
  have h1 : c ∈ strip (removeWords (urgentWords ++ minorWords)
      (strip (removeHash (strip (triggers.foldl
        (fun s t => removeWords [t] s) (lowerStr text)))))) := hc
  have h2 := mem_removeWords (mem_strip h1)
  have h3 := mem_removeHash (mem_strip h2)
  have h4 := mem_foldl_removeWords triggers _ (mem_strip h3)
  have h5 := mem_lowerStr_not_upper h4
  simp [h5]

end Memento
